import Mathlib

/-!
Verification of the context-aware lexical scanner, structural match selector,
edit application engine, and the tool-registration decorator of the unity-mcp
repository.  The scanner/selector/engine live in
`services/tools/script_apply_edits.py`, which is exercised by
`tests/integration/test_script_apply_edits_local.py`; the decorator is
`services/registry/tool_registry.py`.
-/

namespace UnityMcp

/-- String-literal variants of the C#-family lexical grammar (spec §3):
regular, verbatim, interpolated, verbatim-interpolated, raw with opening
quote-run length `n`, and raw-interpolated with dollar count `k` and
quote-run length `n`. -/
inductive StrVariant where
  | regular
  | verbatim
  | interp
  | verbatimInterp
  | raw (n : Nat)
  | rawInterp (k n : Nat)
deriving DecidableEq

/-- Number of dollar signs governing interpolation holes of a string
variant (spec §4.1): 1 for interpolated and verbatim-interpolated strings,
`k` for `RawInterpolated(k, n)`, 0 for non-interpolated variants. -/
def dollarCount : StrVariant → Nat
  | .interp => 1
  | .verbatimInterp => 1
  | .rawInterp k _ => k
  | _ => 0

/-- Per-offset lexical classification.  `code` is executable code at top
level, `hole v` is code inside an interpolation hole of a string of variant
`v`, `holeDelim v` is a brace run delimiting such a hole; `str v`,
`lineComment` and `blockComment` are string/comment content. -/
inductive Kind where
  | code
  | lineComment
  | blockComment
  | str (v : StrVariant)
  | hole (v : StrVariant)
  | holeDelim (v : StrVariant)
deriving DecidableEq

/-- Scanner mode: in code, in a line comment, in a block comment, or inside
a string literal of the given variant (spec §4.1). -/
inductive Mode where
  | code
  | lineComment
  | blockComment
  | inStr (v : StrVariant)
deriving DecidableEq

/-- Scanner state: the current mode plus the stack of enclosing interpolated
strings whose holes we are currently inside, each with its open hole depth
(spec §4.1: "a stack of active string states"). -/
structure ScanSt where
  mode : Mode
  stack : List (StrVariant × Nat)
deriving DecidableEq

/-- Classification emitted for a code-mode character: plain `code` at top
level, `hole v` when inside an interpolation hole of variant `v`. -/
def codeKind : List (StrVariant × Nat) → Kind
  | [] => .code
  | (v, _) :: _ => .hole v

/-- Length of the maximal run of the character `c` at the head of a list. -/
def runLen (c : Char) : List Char → Nat
  | [] => 0
  | x :: xs => if x = c then runLen c xs + 1 else 0

theorem runLen_le (c : Char) : ∀ l : List Char, runLen c l ≤ l.length := by
  intro l
  induction l with
  | nil => simp [runLen]
  | cons x xs ih =>
    simp only [runLen, List.length_cons]
    split <;> omega

/-- Modelled from the spec: one transition of the string-mode part of the
classifier of `services/tools/script_apply_edits.py` (absent from src/, spec
§4.1).  Given the variant of the enclosing string, the stack of outer
interpolated strings, the current character and the remaining text, it
returns the classifications of the consumed characters and the next state.
Closing rules: a regular string ends at an unescaped quote, a verbatim one
at a quote not doubled, a raw one at a quote run of length ≥ n; inside an
interpolated variant a brace run whose length equals the dollar count opens
a hole, while a shorter (or longer) run is literal content. -/
def stepStr (v : StrVariant) (stk : List (StrVariant × Nat)) (c : Char) (rest : List Char) :
    List Kind × ScanSt :=
  match v with
  | .regular =>
    if c = '\\' then
      match rest with
      | _ :: _ => ([.str .regular, .str .regular], ⟨.inStr .regular, stk⟩)
      | [] => ([.str .regular], ⟨.inStr .regular, stk⟩)
    else if c = '"' then ([.str .regular], ⟨.code, stk⟩)
    else ([.str .regular], ⟨.inStr .regular, stk⟩)
  | .verbatim =>
    if c = '"' then
      match rest with
      | '"' :: _ => ([.str .verbatim, .str .verbatim], ⟨.inStr .verbatim, stk⟩)
      | _ => ([.str .verbatim], ⟨.code, stk⟩)
    else ([.str .verbatim], ⟨.inStr .verbatim, stk⟩)
  | .interp =>
    if c = '\\' then
      match rest with
      | _ :: _ => ([.str .interp, .str .interp], ⟨.inStr .interp, stk⟩)
      | [] => ([.str .interp], ⟨.inStr .interp, stk⟩)
    else if c = '"' then ([.str .interp], ⟨.code, stk⟩)
    else if c = '{' then
      let r := runLen '{' rest + 1
      if r = dollarCount .interp then ([.holeDelim .interp], ⟨.code, (.interp, 1) :: stk⟩)
      else (List.replicate r (.str .interp), ⟨.inStr .interp, stk⟩)
    else if c = '}' then
      (List.replicate (runLen '}' rest + 1) (.str .interp), ⟨.inStr .interp, stk⟩)
    else ([.str .interp], ⟨.inStr .interp, stk⟩)
  | .verbatimInterp =>
    if c = '"' then
      match rest with
      | '"' :: _ => ([.str .verbatimInterp, .str .verbatimInterp], ⟨.inStr .verbatimInterp, stk⟩)
      | _ => ([.str .verbatimInterp], ⟨.code, stk⟩)
    else if c = '{' then
      let r := runLen '{' rest + 1
      if r = dollarCount .verbatimInterp then
        ([.holeDelim .verbatimInterp], ⟨.code, (.verbatimInterp, 1) :: stk⟩)
      else (List.replicate r (.str .verbatimInterp), ⟨.inStr .verbatimInterp, stk⟩)
    else if c = '}' then
      (List.replicate (runLen '}' rest + 1) (.str .verbatimInterp), ⟨.inStr .verbatimInterp, stk⟩)
    else ([.str .verbatimInterp], ⟨.inStr .verbatimInterp, stk⟩)
  | .raw n =>
    if c = '"' then
      let q := runLen '"' rest + 1
      if n ≤ q then (List.replicate q (.str (.raw n)), ⟨.code, stk⟩)
      else (List.replicate q (.str (.raw n)), ⟨.inStr (.raw n), stk⟩)
    else ([.str (.raw n)], ⟨.inStr (.raw n), stk⟩)
  | .rawInterp k n =>
    if c = '"' then
      let q := runLen '"' rest + 1
      if n ≤ q then (List.replicate q (.str (.rawInterp k n)), ⟨.code, stk⟩)
      else (List.replicate q (.str (.rawInterp k n)), ⟨.inStr (.rawInterp k n), stk⟩)
    else if c = '{' then
      let r := runLen '{' rest + 1
      if r = k then (List.replicate r (.holeDelim (.rawInterp k n)), ⟨.code, (.rawInterp k n, 1) :: stk⟩)
      else (List.replicate r (.str (.rawInterp k n)), ⟨.inStr (.rawInterp k n), stk⟩)
    else if c = '}' then
      (List.replicate (runLen '}' rest + 1) (.str (.rawInterp k n)), ⟨.inStr (.rawInterp k n), stk⟩)
    else ([.str (.rawInterp k n)], ⟨.inStr (.rawInterp k n), stk⟩)

/-- Modelled from the spec: one transition of the lexical classifier of
`services/tools/script_apply_edits.py` (absent from src/, spec §4.1).
From code mode, `//` opens a line comment, `/*` a block comment; a dollar
run, optional `@` and a quote run select the string variant; a brace run
whose length equals the enclosing hole's dollar count adjusts the hole
depth.  The function returns the classifications of the consumed characters
(always a prefix of the input of positive length when the input is
non-empty) and the successor state. -/
def step (st : ScanSt) (l : List Char) : List Kind × ScanSt :=
  match st.mode, l with
  | _, [] => ([], st)
  | .lineComment, c :: _ =>
    if c = '\n' then ([codeKind st.stack], ⟨.code, st.stack⟩) else ([.lineComment], st)
  | .blockComment, c :: rest =>
    match c, rest with
    | '*', '/' :: _ => ([.blockComment, .blockComment], ⟨.code, st.stack⟩)
    | _, _ => ([.blockComment], st)
  | .inStr v, c :: rest => stepStr v st.stack c rest
  | .code, c :: rest =>
    if c = '/' then
      match rest with
      | '/' :: _ => ([.lineComment, .lineComment], ⟨.lineComment, st.stack⟩)
      | '*' :: _ => ([.blockComment, .blockComment], ⟨.blockComment, st.stack⟩)
      | _ => ([codeKind st.stack], st)
    else if c = '"' then
      let q := runLen '"' rest + 1
      if 3 ≤ q then (List.replicate q (.str (.raw q)), ⟨.inStr (.raw q), st.stack⟩)
      else ([.str .regular], ⟨.inStr .regular, st.stack⟩)
    else if c = '@' then
      match rest with
      | '"' :: _ => ([.str .verbatim, .str .verbatim], ⟨.inStr .verbatim, st.stack⟩)
      | '$' :: '"' :: _ =>
        ([.str .verbatimInterp, .str .verbatimInterp, .str .verbatimInterp],
          ⟨.inStr .verbatimInterp, st.stack⟩)
      | _ => ([codeKind st.stack], st)
    else if c = '$' then
      let k := runLen '$' rest + 1
      match rest.drop (k - 1) with
      | '"' :: r2 =>
        let q := runLen '"' r2 + 1
        if 3 ≤ q then
          (List.replicate (k + q) (.str (.rawInterp k q)), ⟨.inStr (.rawInterp k q), st.stack⟩)
        else if k = 1 then ([.str .interp, .str .interp], ⟨.inStr .interp, st.stack⟩)
        else (List.replicate k (codeKind st.stack), st)
      | '@' :: '"' :: _ =>
        if k = 1 then
          ([.str .verbatimInterp, .str .verbatimInterp, .str .verbatimInterp],
            ⟨.inStr .verbatimInterp, st.stack⟩)
        else (List.replicate k (codeKind st.stack), st)
      | _ => (List.replicate k (codeKind st.stack), st)
    else if c = '{' then
      let r := runLen '{' rest + 1
      match st.stack with
      | (v, d) :: tail =>
        if r = dollarCount v then (List.replicate r (.holeDelim v), ⟨.code, (v, d + 1) :: tail⟩)
        else (List.replicate r (codeKind st.stack), st)
      | [] => (List.replicate r .code, st)
    else if c = '}' then
      let r := runLen '}' rest + 1
      match st.stack with
      | (v, d) :: tail =>
        if r = dollarCount v then
          if d ≤ 1 then (List.replicate r (.holeDelim v), ⟨.inStr v, tail⟩)
          else (List.replicate r (.holeDelim v), ⟨.code, (v, d - 1) :: tail⟩)
        else (List.replicate r (codeKind st.stack), st)
      | [] => (List.replicate r .code, st)
    else ([codeKind st.stack], st)

/-- Modelled from the spec: the single forward pass of the classifier of
`services/tools/script_apply_edits.py` (absent from src/, spec §4.1),
written with a fuel argument so that it is structurally recursive; one unit
of fuel per consumed prefix suffices because `step` always consumes at
least one character of a non-empty input. -/
def scanAux : Nat → ScanSt → List Char → List Kind
  | 0, _, _ => []
  | _, _, [] => []
  | fuel + 1, st, c :: rest =>
    let s := step st (c :: rest)
    s.1 ++ scanAux fuel s.2 ((c :: rest).drop s.1.length)

/-- Modelled from the spec: per-offset classification list of a whole text
(spec §4.1), one `Kind` per character, produced by one deterministic
left-to-right pass starting in code mode with an empty string stack. -/
def scanKinds (t : List Char) : List Kind := scanAux t.length ⟨.code, []⟩ t

/-- Whether a classification counts as string-or-comment context for the
classifier query (spec §4.1): string and comment content do, executable
code and interpolation holes do not. -/
def contextKind : Kind → Bool
  | .str _ => true
  | .lineComment => true
  | .blockComment => true
  | .code => false
  | .hole _ => false
  | .holeDelim _ => false

/-- Modelled from the spec: the classifier query of
`services/tools/script_apply_edits.py` (absent from src/, spec §4.1) —
given the full text and a target offset, report whether that offset is in
string-or-comment context (true) or in executable code / an interpolation
hole (false).  Offsets past the end of the text report false. -/
def _is_in_string_context (t : List Char) (off : Nat) : Bool :=
  contextKind ((scanKinds t).getD off .code)

/-- A lexical span: a contiguous half-open offset range `[start, stop)`
tagged with a context kind (spec §3). -/
structure Span where
  start : Nat
  stop : Nat
  kind : Kind
deriving DecidableEq

/-- Modelled from the spec: run-length grouping of the per-offset
classification list into contiguous spans, the first one starting at the
given base offset (spec §§3, 4.1: the span list is precomputed once per
request and reused for every query). -/
def groupSpans : Nat → List Kind → List Span
  | _, [] => []
  | i, k :: ks =>
    match groupSpans (i + 1) ks with
    | [] => [⟨i, i + 1, k⟩]
    | s :: ss => if s.kind = k then ⟨i, s.stop, k⟩ :: ss else ⟨i, i + 1, k⟩ :: s :: ss

/-- Look an offset up in a span list: the kind of the first span whose
half-open range contains it, if any. -/
def lookupSpan (spans : List Span) (off : Nat) : Option Kind :=
  spans.findSome? fun s => if s.start ≤ off ∧ off < s.stop then some s.kind else none

/-- Modelled from the spec: the span list of a text (spec §§3, 4.1). -/
def spansOf (t : List Char) : List Span := groupSpans 0 (scanKinds t)

/-- Modelled from the spec: the underlying span classification exposed by
the classifier (spec §4.1), looked up in the precomputed span list; offsets
outside every span classify as code. -/
def classifyAt (t : List Char) (off : Nat) : Kind :=
  (lookupSpan (spansOf t) off).getD .code

/-- Bool-valued chain predicate for a span list: the spans exactly tile the
half-open range from the first argument to the last, in order, each span
non-empty — i.e. they partition the range with no gaps and no overlaps. -/
def chainedFrom (a : Nat) : List Span → Nat → Bool
  | [], b => a = b
  | s :: ss, b => s.start = a && a < s.stop && chainedFrom s.stop ss b

/-- Whether a classification is code context for structural-depth counting
(spec §4.2): top-level code and interpolation-hole interiors count; string
and comment content and hole-boundary brace runs do not. -/
def codeCtx : Kind → Bool
  | .code => true
  | .hole _ => true
  | _ => false

/-- Modelled from the spec: the structural depth of an offset
(spec §4.2) — scan code-context-only characters from offset 0 to the
candidate, incrementing on an opening brace and decrementing on a closing
brace, ignoring braces inside non-code spans and hole-boundary brace runs;
the result is the balance immediately before the candidate. -/
def depthAt (t : List Char) (off : Nat) : Int :=
  ((t.zip (scanKinds t)).take off).foldl
    (fun d ck =>
      if codeCtx ck.2 then
        if ck.1 = '{' then d + 1 else if ck.1 = '}' then d - 1 else d
      else d)
    0

/-- Modelled from the spec: the brace-closing match selector of
`services/tools/script_apply_edits.py` (absent from src/, spec §4.2).
Candidates are given by their start offsets in text order; candidates whose
start offset classifies as in-string/in-comment are discarded, and among
the survivors the one with minimum structural depth wins, ties broken by
latest occurring position (the fold replaces the current best whenever a
later candidate's depth is less than or equal). -/
def _find_best_closing_brace_match (cands : List Nat) (t : List Char) : Option Nat :=
  (cands.filter fun c => !(_is_in_string_context t c)).foldl
    (fun best c =>
      match best with
      | none => some c
      | some b => if depthAt t c ≤ depthAt t b then some c else some b)
    none

/-- Modelled from the spec: the generic anchor match selector of
`services/tools/script_apply_edits.py` (absent from src/, spec §4.2).
Candidates whose start offset classifies as in-string/in-comment are
discarded (interpolation holes are code and are kept); among the survivors
the preference flag selects the last or the first directly, and when no
candidate survives the result is `none` (the `NoAnchorMatch` error kind of
spec §7). -/
def _find_best_anchor_match (cands : List Nat) (t : List Char) (preferLast : Bool) : Option Nat :=
  let survivors := cands.filter fun c => !(_is_in_string_context t c)
  if preferLast then survivors.getLast? else survivors.head?

/-- Whether a haystack contains the needle as a contiguous sublist. -/
def containsSub (needle : List Char) : List Char → Bool
  | [] => needle.isEmpty
  | c :: rest => needle.isPrefixOf (c :: rest) || containsSub needle rest

/-- Modelled from the spec: global left-to-right substitution of every
occurrence of a literal pattern by a replacement (spec §4.3 `RegexReplace`;
the regex engine itself is out of scope, the pattern is treated as a
literal token as in the spec's §8 `OLD`/`NEW` scenario).  Fuel-based so the
recursion is structural; one unit of fuel per consumed character
suffices. -/
def replaceAllAux : Nat → List Char → List Char → List Char → List Char
  | 0, buf, _, _ => buf
  | fuel + 1, buf, pat, rep =>
    match buf with
    | [] => []
    | c :: rest =>
      if !pat.isEmpty && pat.isPrefixOf (c :: rest) then
        rep ++ replaceAllAux fuel ((c :: rest).drop pat.length) pat rep
      else
        c :: replaceAllAux fuel rest pat rep

/-- Modelled from the spec: `replaceAll buf pat rep` replaces every
occurrence of `pat` in `buf` by `rep`, scanning left to right. -/
def replaceAll (buf pat rep : List Char) : List Char :=
  replaceAllAux buf.length buf pat rep

/-- Error kinds of the edit engine (spec §7): an invalid range (end before
start, or addresses outside the buffer) and a pattern search with zero
usable candidates. -/
inductive ErrKind where
  | invalidRange
  | noAnchorMatch
deriving DecidableEq

/-- A structured edit failure: the index of the first failing operation and
the error kind (spec §§6, 7). -/
structure EditError where
  opIndex : Nat
  kind : ErrKind
deriving DecidableEq

/-- Edit operations of the edit application engine (spec §3): replace a
1-based (line, column) range, prepend, append, and global regex
replacement.  `RegexReplace` keeps the optional separate literal `text`
field seen in example payloads (spec §9): the engine treats `replacement`
as authoritative and ignores it. -/
inductive EditOp where
  | replaceRange (startLine startCol endLine endCol : Nat) (text : List Char)
  | prepend (text : List Char)
  | append (text : List Char)
  | regexReplace (pattern replacement : List Char) (textField : Option (List Char))
deriving DecidableEq

/-- Offset of the start of the given 0-based line: skip that many
newlines. -/
def lineStart : List Char → Nat → Option Nat
  | _, 0 => some 0
  | [], _ + 1 => none
  | c :: rest, n + 1 =>
    if c = '\n' then (lineStart rest n).map (· + 1)
    else (lineStart rest (n + 1)).map (· + 1)

/-- Length of the current line: characters up to the next newline. -/
def lineLen (l : List Char) : Nat := (l.takeWhile fun c => c ≠ '\n').length

/-- Modelled from the spec: resolve a 1-based (line, column) position
against a buffer to a 0-based offset (spec §§3, 6), failing when the line
or column is out of range; the column may point one past the end of its
line. -/
def posToOffset (buf : List Char) (line col : Nat) : Option Nat :=
  if line = 0 ∨ col = 0 then none
  else
    match lineStart buf (line - 1) with
    | none => none
    | some s => if col - 1 ≤ lineLen (buf.drop s) then some (s + (col - 1)) else none

/-- Modelled from the spec: apply one edit operation to the current buffer
(spec §4.3).  `prepend` inserts at offset 0 and `append` at the current
end regardless of other operations; `replaceRange` resolves both positions
against the current buffer and fails with `invalidRange` when either is out
of range or the end precedes the start; `regexReplace` substitutes
globally, its `replacement` field authoritative. -/
def applyOne (buf : List Char) : EditOp → Except ErrKind (List Char)
  | .prepend t => .ok (t ++ buf)
  | .append t => .ok (buf ++ t)
  | .regexReplace p r _ => .ok (replaceAll buf p r)
  | .replaceRange sl sc el ec txt =>
    match posToOffset buf sl sc, posToOffset buf el ec with
    | some s, some e =>
      if e < s then .error .invalidRange
      else .ok (buf.take s ++ txt ++ buf.drop e)
    | _, _ => .error .invalidRange

/-- Modelled from the spec: sequential application of edit operations to a
mutable working buffer, fail-fast — the first failing operation aborts the
batch and is reported by index and kind (spec §§4.3, 7). -/
def applyEditsFrom (i : Nat) (buf : List Char) : List EditOp → Except EditError (List Char)
  | [] => .ok buf
  | op :: ops =>
    match applyOne buf op with
    | .ok buf2 => applyEditsFrom (i + 1) buf2 ops
    | .error k => .error ⟨i, k⟩

/-- Modelled from the spec: the edit application engine of
`services/tools/script_apply_edits.py` (absent from src/, spec §4.3) —
given an original text and an ordered list of edit operations, produce the
fully edited text or a structured failure naming the first failing
operation; every result is a success/failure value, nothing is raised. -/
def _apply_edits_locally (text : List Char) (ops : List EditOp) : Except EditError (List Char) :=
  applyEditsFrom 0 text ops

/-- Python whitespace as stripped by `str.strip()` (ASCII range). -/
def isPyWs (c : Char) : Bool :=
  c = ' ' || c = '\t' || c = '\n' || c = '\r' || c = '\x0b' || c = '\x0c'

/-- Leading and trailing whitespace removal, as Python's `str.strip()`. -/
def pyStrip (s : List Char) : List Char :=
  ((s.dropWhile isPyWs).reverse.dropWhile isPyWs).reverse

/-- One entry of the global tool registry of
`services/registry/tool_registry.py`: the decorated function (by name), the
tool name, the description, the normalized visibility target and the
remaining keyword arguments. -/
structure ToolEntry where
  func : List Char
  name : List Char
  description : Option (List Char)
  unity_target : Option (List Char)
  kwargs : List (List Char × List Char)
deriving DecidableEq

/-- The tool-registration decorator `mcp_for_unity_tool` of
`services/registry/tool_registry.py`, modelled at the moment the decorator
is applied to a function: the tool name defaults to the function name, the
`unity_target` key is removed from the keyword arguments, the target is
normalized (`none` stays `none`, the exact string `"self"` becomes the tool
name, any other string with non-whitespace content is stripped), a
`ValueError` is raised — and nothing is appended — for a whitespace-only
target, and otherwise exactly one entry is appended to the registry. -/
def mcp_for_unity_tool (registry : List ToolEntry) (name : Option (List Char))
    (description : Option (List Char)) (unity_target : Option (List Char))
    (kwargs : List (List Char × List Char)) (funcName : List Char) :
    Except (List Char) (List ToolEntry) :=
  let tool_name := name.getD funcName
  let tool_kwargs := kwargs.filter fun kv => kv.1 ≠ "unity_target".data
  match unity_target with
  | none => .ok (registry ++ [⟨funcName, tool_name, description, none, tool_kwargs⟩])
  | some s =>
    if pyStrip s ≠ [] then
      .ok (registry ++
        [⟨funcName, tool_name, description,
          some (if s = "self".data then tool_name else pyStrip s), tool_kwargs⟩])
    else
      .error "ValueError: Invalid unity_target".data

theorem stepStr_fst_ne_nil (v : StrVariant) (stk : List (StrVariant × Nat)) (c : Char)
    (rest : List Char) : (stepStr v stk c rest).1 ≠ [] := by
  cases v <;> simp only [stepStr] <;>
    (repeat' split) <;> simp [List.replicate_eq_nil_iff]

set_option maxHeartbeats 1000000 in
theorem step_fst_ne_nil (st : ScanSt) (c : Char) (l : List Char) :
    (step st (c :: l)).1 ≠ [] := by
  obtain ⟨m, stk⟩ := st
  cases m
  case inStr v => exact stepStr_fst_ne_nil v stk c l
  all_goals
    simp only [step] <;> (repeat' split) <;> simp [List.replicate_eq_nil_iff]

theorem stepStr_fst_le (v : StrVariant) (stk : List (StrVariant × Nat)) (c : Char)
    (rest : List Char) : (stepStr v stk c rest).1.length ≤ rest.length + 1 := by
  have h1 := runLen_le '{' rest
  have h2 := runLen_le '}' rest
  have h3 := runLen_le '"' rest
  cases v <;> simp only [stepStr] <;>
    (repeat' split) <;> simp_all <;> omega

set_option maxHeartbeats 1000000 in
theorem step_fst_le (st : ScanSt) (c : Char) (l : List Char) :
    (step st (c :: l)).1.length ≤ (c :: l).length := by
  obtain ⟨m, stk⟩ := st
  cases m
  case inStr v => simpa using stepStr_fst_le v stk c l
  all_goals
    have h1 := runLen_le '{' l
    have h2 := runLen_le '}' l
    have h3 := runLen_le '"' l
    have h4 := runLen_le '$' l
    simp only [step]
    (repeat' split) <;> simp_all <;> try omega
  rename_i hc x r2 heq hq
  have h5 := congrArg List.length heq
  simp at h5
  have h6 := runLen_le '"' r2
  omega

theorem step_fst_pos (st : ScanSt) (c : Char) (l : List Char) :
    1 ≤ (step st (c :: l)).1.length := by
  cases hh : (step st (c :: l)).1 with
  | nil => exact absurd hh (step_fst_ne_nil st c l)
  | cons a as => simp

theorem scanAux_length : ∀ (fuel : Nat) (st : ScanSt) (l : List Char), l.length ≤ fuel →
    (scanAux fuel st l).length = l.length := by
  intro fuel
  induction fuel with
  | zero =>
    intro st l h
    have hl : l = [] := List.eq_nil_of_length_eq_zero (Nat.le_zero.mp h)
    subst hl
    simp [scanAux]
  | succ fuel ih =>
    intro st l h
    match l with
    | [] => simp [scanAux]
    | c :: rest =>
      have hle := step_fst_le st c rest
      have hpos := step_fst_pos st c rest
      simp only [scanAux, List.length_append]
      rw [ih _ _ (by simp only [List.length_drop]; simp at h ⊢; omega)]
      simp only [List.length_drop, List.length_cons] at *
      omega

theorem scanKinds_length (t : List Char) : (scanKinds t).length = t.length :=
  scanAux_length t.length ⟨.code, []⟩ t le_rfl


theorem groupSpans_ne_nil (i : Nat) (k : Kind) (ks : List Kind) :
    groupSpans i (k :: ks) ≠ [] := by
  simp only [groupSpans]
  (repeat' split) <;> simp

theorem groupSpans_chain : ∀ (ks : List Kind) (i : Nat),
    chainedFrom i (groupSpans i ks) (i + ks.length) = true := by
  intro ks
  induction ks with
  | nil => intro i; simp [groupSpans, chainedFrom]
  | cons k ks ih =>
    intro i
    simp only [groupSpans]
    cases hG : groupSpans (i + 1) ks with
    | nil =>
      have hks : ks = [] := by
        cases ks with
        | nil => rfl
        | cons a as => exact absurd hG (groupSpans_ne_nil _ _ _)
      subst hks
      simp [chainedFrom]
    | cons s ss =>
      have hch := ih (i + 1)
      rw [hG] at hch
      simp only [chainedFrom, Bool.and_eq_true, decide_eq_true_eq] at hch
      obtain ⟨⟨hs, hlt⟩, hrest⟩ := hch
      have harg : i + 1 + ks.length = i + (ks.length + 1) := by omega
      rw [harg] at hrest
      dsimp only
      split
      · simp [chainedFrom, hrest]
        try omega
      · simp [chainedFrom, hs, hlt, hrest]
        try omega

theorem chainedFrom_bounds : ∀ (ss : List Span) (a b : Nat), chainedFrom a ss b = true →
    a ≤ b ∧ ∀ s ∈ ss, a ≤ s.start ∧ s.start < s.stop ∧ s.stop ≤ b := by
  intro ss
  induction ss with
  | nil =>
    intro a b h
    simp only [chainedFrom, decide_eq_true_eq] at h
    subst h
    simp
  | cons s ss ih =>
    intro a b h
    simp only [chainedFrom, Bool.and_eq_true, decide_eq_true_eq] at h
    obtain ⟨⟨hs, hlt⟩, hrest⟩ := h
    obtain ⟨hab, hmem⟩ := ih s.stop b hrest
    refine ⟨by omega, ?_⟩
    intro x hx
    rcases List.mem_cons.mp hx with rfl | hx
    · omega
    · have := hmem x hx
      omega

theorem lookupSpan_cons_of_mem (s : Span) (ss : List Span) (off : Nat)
    (h1 : s.start ≤ off) (h2 : off < s.stop) : lookupSpan (s :: ss) off = some s.kind := by
  simp [lookupSpan, List.findSome?_cons, h1, h2]

theorem lookupSpan_cons_of_not_mem (s : Span) (ss : List Span) (off : Nat)
    (h : ¬(s.start ≤ off ∧ off < s.stop)) : lookupSpan (s :: ss) off = lookupSpan ss off := by
  simp only [lookupSpan, List.findSome?_cons]
  rw [if_neg h]

theorem lookupSpan_none_of_ge : ∀ (ss : List Span) (a b off : Nat),
    chainedFrom a ss b = true → b ≤ off → lookupSpan ss off = none := by
  intro ss
  induction ss with
  | nil => intro a b off _ _; simp [lookupSpan]
  | cons s ss ih =>
    intro a b off h hge
    simp only [chainedFrom, Bool.and_eq_true, decide_eq_true_eq] at h
    obtain ⟨⟨hs, hlt⟩, hrest⟩ := h
    have hb := (chainedFrom_bounds ss s.stop b hrest).1
    rw [lookupSpan_cons_of_not_mem _ _ _ (by omega)]
    exact ih s.stop b off hrest hge

theorem lookupSpan_groupSpans : ∀ (ks : List Kind) (i off : Nat), off < ks.length →
    lookupSpan (groupSpans i ks) (i + off) = some (ks.getD off .code) := by
  intro ks
  induction ks with
  | nil => intro i off h; simp at h
  | cons k ks ih =>
    intro i off hoff
    simp only [groupSpans]
    cases hG : groupSpans (i + 1) ks with
    | nil =>
      have hks : ks = [] := by
        cases ks with
        | nil => rfl
        | cons a as => exact absurd hG (groupSpans_ne_nil _ _ _)
      subst hks
      simp only [List.length_cons, List.length_nil] at hoff
      have hz : off = 0 := by omega
      subst hz
      dsimp only
      have e := lookupSpan_cons_of_mem ⟨i, i + 1, k⟩ [] i (by simp) (by simp)
      simpa using e
    | cons s ss =>
      have hch := groupSpans_chain ks (i + 1)
      rw [hG] at hch
      simp only [chainedFrom, Bool.and_eq_true, decide_eq_true_eq] at hch
      obtain ⟨⟨hs, hlt⟩, hrest⟩ := hch
      dsimp only
      by_cases hk : s.kind = k
      · rw [if_pos hk]
        cases off with
        | zero =>
          have e := lookupSpan_cons_of_mem ⟨i, s.stop, k⟩ ss i (by simp) (by simp; omega)
          simpa using e
        | succ off2 =>
          have hoff2 : off2 < ks.length := by
            simp only [List.length_cons] at hoff
            omega
          have IH := ih (i + 1) off2 hoff2
          rw [hG] at IH
          by_cases hin : i + (off2 + 1) < s.stop
          · have e1 : lookupSpan (s :: ss) (i + 1 + off2) = some s.kind :=
              lookupSpan_cons_of_mem _ _ _ (by omega) (by omega)
            have e2 : some s.kind = some (ks.getD off2 Kind.code) := by
              rw [← e1, IH]
            have e3 := lookupSpan_cons_of_mem ⟨i, s.stop, k⟩ ss (i + (off2 + 1))
              (by simp) (by simp; omega)
            rw [e3]
            simp only [List.getD_cons_succ]
            rw [← hk]
            exact e2
          · have e1 : lookupSpan (s :: ss) (i + 1 + off2) = lookupSpan ss (i + 1 + off2) :=
              lookupSpan_cons_of_not_mem _ _ _ (by omega)
            have e3 := lookupSpan_cons_of_not_mem ⟨i, s.stop, k⟩ ss (i + (off2 + 1))
              (by simp; omega)
            rw [e3, show i + (off2 + 1) = i + 1 + off2 by omega, ← e1, IH]
            simp
      · rw [if_neg hk]
        cases off with
        | zero =>
          have e := lookupSpan_cons_of_mem ⟨i, i + 1, k⟩ (s :: ss) i (by simp) (by simp)
          simpa using e
        | succ off2 =>
          have hoff2 : off2 < ks.length := by
            simp only [List.length_cons] at hoff
            omega
          have IH := ih (i + 1) off2 hoff2
          rw [hG] at IH
          have e3 := lookupSpan_cons_of_not_mem ⟨i, i + 1, k⟩ (s :: ss) (i + (off2 + 1))
            (by simp)
          rw [e3, show i + (off2 + 1) = i + 1 + off2 by omega, IH]
          simp


theorem classifyAt_eq_getD (t : List Char) (off : Nat) (h : off < t.length) :
    classifyAt t off = (scanKinds t).getD off .code := by
  have hlen := scanKinds_length t
  have hl := lookupSpan_groupSpans (scanKinds t) 0 off (by omega)
  simp only [Nat.zero_add] at hl
  simp [classifyAt, spansOf, hl]

theorem classifyAt_eq_code_of_ge (t : List Char) (off : Nat) (h : t.length ≤ off) :
    classifyAt t off = .code := by
  have hlen := scanKinds_length t
  have hch := groupSpans_chain (scanKinds t) 0
  have hn := lookupSpan_none_of_ge (groupSpans 0 (scanKinds t)) 0
    (0 + (scanKinds t).length) off hch (by omega)
  simp [classifyAt, spansOf, hn]

theorem is_in_string_context_eq_classifyAt (t : List Char) (off : Nat) (h : off < t.length) :
    _is_in_string_context t off = contextKind (classifyAt t off) := by
  rw [classifyAt_eq_getD t off h]
  rfl

theorem runLen_eq_zero (c : Char) (l : List Char) (h : l.head? ≠ some c) : runLen c l = 0 := by
  cases l with
  | nil => simp [runLen]
  | cons x xs =>
    simp only [List.head?_cons, ne_eq, Option.some.injEq] at h
    simp [runLen, h]

theorem runLen_replicate_append (c : Char) (r : Nat) (rest : List Char)
    (h : rest.head? ≠ some c) : runLen c (List.replicate r c ++ rest) = r := by
  induction r with
  | zero => simpa [List.replicate] using runLen_eq_zero c rest h
  | succ r2 ih => simp [List.replicate_succ, runLen, ih]

theorem step_short_brace_run (k n r : Nat) (stk : List (StrVariant × Nat))
    (rest : List Char) (h1 : 1 ≤ r) (h2 : r < k) (h3 : rest.head? ≠ some '{') :
    step ⟨.inStr (.rawInterp k n), stk⟩ (List.replicate r '{' ++ rest) =
      (List.replicate r (.str (.rawInterp k n)), ⟨.inStr (.rawInterp k n), stk⟩) := by
  obtain ⟨r2, rfl⟩ : ∃ r2, r = r2 + 1 := ⟨r - 1, by omega⟩
  rw [List.replicate_succ, List.cons_append]
  show stepStr (.rawInterp k n) stk '{' (List.replicate r2 '{' ++ rest) = _
  simp only [stepStr]
  rw [if_neg (show ¬('{' : Char) = '"' by decide)]
  rw [runLen_replicate_append '{' r2 rest h3]
  simp only [if_true]
  rw [if_neg (by omega)]

theorem step_hole_brace_run (k n : Nat) (stk : List (StrVariant × Nat))
    (rest : List Char) (h1 : 1 ≤ k) (h3 : rest.head? ≠ some '{') :
    step ⟨.inStr (.rawInterp k n), stk⟩ (List.replicate k '{' ++ rest) =
      (List.replicate k (.holeDelim (.rawInterp k n)), ⟨.code, (.rawInterp k n, 1) :: stk⟩) := by
  obtain ⟨k2, rfl⟩ : ∃ k2, k = k2 + 1 := ⟨k - 1, by omega⟩
  rw [List.replicate_succ, List.cons_append]
  show stepStr (.rawInterp (k2 + 1) n) stk '{' (List.replicate k2 '{' ++ rest) = _
  simp only [stepStr]
  rw [if_neg (show ¬('{' : Char) = '"' by decide)]
  rw [runLen_replicate_append '{' k2 rest h3]
  simp only [if_true]

/-- C1: for every text and every offset whose underlying span classification
is a string literal of any variant, a line comment, or a block comment —
i.e. every offset strictly inside such a lexical element — the classifier
query `_is_in_string_context` returns true. -/
theorem claim1_string_or_comment_context_true (t : List Char) (off : Nat)
    (h : (∃ v, classifyAt t off = .str v) ∨ classifyAt t off = .lineComment ∨
      classifyAt t off = .blockComment) :
    _is_in_string_context t off = true := by
  have hoff : off < t.length := by
    by_contra hc
    have hcode := classifyAt_eq_code_of_ge t off (by omega)
    rcases h with ⟨v, hv⟩ | hv | hv <;> rw [hcode] at hv <;> simp at hv
  rw [is_in_string_context_eq_classifyAt t off hoff]
  rcases h with ⟨v, hv⟩ | hv | hv <;> rw [hv] <;> rfl

/-- C1 witness: inside the doubled-quote escape region of a verbatim string
and inside a block comment, the query evaluates to true on concrete test
inputs from the repository's test suite. -/
theorem claim1_witness :
    ((∃ v, classifyAt "string s = @\"He said \"\"hello\"\"\";".data 23 = .str v) ∧
      _is_in_string_context "string s = @\"He said \"\"hello\"\"\";".data 23 = true) ∧
    (classifyAt "int x = 1; /* block { } */ int y = 2;".data 14 = .blockComment ∧
      _is_in_string_context "int x = 1; /* block { } */ int y = 2;".data 14 = true) :=
  ⟨⟨⟨.verbatim, by decide⟩,
    claim1_string_or_comment_context_true _ 23 (Or.inl ⟨.verbatim, by decide⟩)⟩,
   ⟨by decide, claim1_string_or_comment_context_true _ 14 (Or.inr (Or.inr (by decide)))⟩⟩

/-- C2: interpolation holes are code, shorter brace runs are literal
content.  First conjunct: every offset classified as the interior of an
interpolation hole reports in-string-context = false.  Second conjunct: in
a raw-interpolated string with dollar count `k`, a maximal brace run of
length `r < k` is classified as string content and the scanner stays inside
the string.  Third conjunct: a maximal brace run of length exactly `k`
opens a hole — the scanner switches to code mode with the string pushed on
the hole stack. -/
theorem claim2_interpolation_holes_are_code :
    (∀ (t : List Char) (off : Nat) (v : StrVariant),
      classifyAt t off = .hole v → _is_in_string_context t off = false) ∧
    (∀ (k n r : Nat) (stk : List (StrVariant × Nat)) (rest : List Char),
      1 ≤ r → r < k → rest.head? ≠ some '{' →
      step ⟨.inStr (.rawInterp k n), stk⟩ (List.replicate r '{' ++ rest) =
        (List.replicate r (.str (.rawInterp k n)), ⟨.inStr (.rawInterp k n), stk⟩)) ∧
    (∀ (k n : Nat) (stk : List (StrVariant × Nat)) (rest : List Char),
      1 ≤ k → rest.head? ≠ some '{' →
      step ⟨.inStr (.rawInterp k n), stk⟩ (List.replicate k '{' ++ rest) =
        (List.replicate k (.holeDelim (.rawInterp k n)), ⟨.code, (.rawInterp k n, 1) :: stk⟩)) := by
  refine ⟨?_, step_short_brace_run, step_hole_brace_run⟩
  intro t off v hv
  have hoff : off < t.length := by
    by_contra hc
    have hcode := classifyAt_eq_code_of_ge t off (by omega)
    rw [hcode] at hv
    simp at hv
  rw [is_in_string_context_eq_classifyAt t off hoff, hv]
  rfl

/-- C2 witness: the `x` of the hole in `$"Value: {x}"` classifies as hole
interior and reports false, and concrete brace runs of length 1 and 2
inside a `$$"""` string behave as literal content and hole delimiter
respectively. -/
theorem claim2_witness :
    (classifyAt "string s = $\"Value: {x}\";".data 21 = .hole .interp ∧
      _is_in_string_context "string s = $\"Value: {x}\";".data 21 = false) ∧
    step ⟨.inStr (.rawInterp 2 3), []⟩ (List.replicate 1 '{' ++ "x".data) =
      (List.replicate 1 (.str (.rawInterp 2 3)), ⟨.inStr (.rawInterp 2 3), []⟩) ∧
    step ⟨.inStr (.rawInterp 2 3), []⟩ (List.replicate 2 '{' ++ "x".data) =
      (List.replicate 2 (.holeDelim (.rawInterp 2 3)), ⟨.code, (.rawInterp 2 3, 1) :: []⟩) :=
  ⟨⟨by decide,
    claim2_interpolation_holes_are_code.1 _ 21 .interp (by decide)⟩,
   claim2_interpolation_holes_are_code.2.1 2 3 1 [] "x".data (by decide) (by decide) (by decide),
   claim2_interpolation_holes_are_code.2.2 2 3 [] "x".data (by decide) (by decide)⟩


theorem step_inStr (v : StrVariant) (stk : List (StrVariant × Nat)) (c : Char)
    (rest : List Char) : step ⟨.inStr v, stk⟩ (c :: rest) = stepStr v stk c rest := rfl

theorem stepStr_regular_other (stk : List (StrVariant × Nat)) (c : Char) (rest : List Char)
    (h1 : c ≠ '"') (h2 : c ≠ '\\') :
    stepStr .regular stk c rest = ([.str .regular], ⟨.inStr .regular, stk⟩) := by
  simp [stepStr, h1, h2]

theorem step_block_other (stk : List (StrVariant × Nat)) (c : Char) (rest : List Char)
    (h : c ≠ '*') :
    step ⟨.blockComment, stk⟩ (c :: rest) = ([.blockComment], ⟨.blockComment, stk⟩) := by
  simp only [step]
  split
  · exact absurd rfl h
  · rfl

theorem scanAux_unterminated_regular : ∀ (body : List Char) (fuel : Nat)
    (stk : List (StrVariant × Nat)), body.length ≤ fuel →
    (∀ c ∈ body, c ≠ '"' ∧ c ≠ '\\') →
    scanAux fuel ⟨.inStr .regular, stk⟩ body = List.replicate body.length (Kind.str .regular) := by
  intro body
  induction body with
  | nil => intro fuel stk h1 h2; cases fuel <;> simp [scanAux]
  | cons c rest ih =>
    intro fuel stk h1 h2
    obtain ⟨f, rfl⟩ : ∃ f, fuel = f + 1 := ⟨fuel - 1, by simp at h1; omega⟩
    have hc := h2 c (by simp)
    simp only [scanAux, step_inStr, stepStr_regular_other stk c rest hc.1 hc.2]
    simp only [List.length_cons, List.singleton_append, List.drop_succ_cons, List.drop_zero,
      List.length_nil]
    rw [ih f stk (by simp at h1; omega) (fun x hx => h2 x (by simp [hx]))]
    simp [List.replicate_succ]

theorem scanAux_unterminated_block : ∀ (body : List Char) (fuel : Nat)
    (stk : List (StrVariant × Nat)), body.length ≤ fuel →
    (∀ c ∈ body, c ≠ '*') →
    scanAux fuel ⟨.blockComment, stk⟩ body = List.replicate body.length Kind.blockComment := by
  intro body
  induction body with
  | nil => intro fuel stk h1 h2; cases fuel <;> simp [scanAux]
  | cons c rest ih =>
    intro fuel stk h1 h2
    obtain ⟨f, rfl⟩ : ∃ f, fuel = f + 1 := ⟨fuel - 1, by simp at h1; omega⟩
    simp only [scanAux, step_block_other stk c rest (h2 c (by simp))]
    simp only [List.length_cons, List.singleton_append, List.drop_succ_cons, List.drop_zero,
      List.length_nil]
    rw [ih f stk (by simp at h1; omega) (fun x hx => h2 x (by simp [hx]))]
    simp [List.replicate_succ]

/-- C4: classification is total and partitions the input.  First conjunct:
for every text — including incomplete or malformed ones — the scanner
assigns exactly one classification per offset.  Second conjunct: the
derived lexical spans tile the interval from 0 to the text length in order
with no gaps and no overlaps.  Third and fourth conjuncts: an unterminated
regular string (no closing quote, no escape ahead) and an unterminated
block comment are classified as continuing to end-of-text rather than
producing an error. -/
theorem claim4_classification_total_partition :
    (∀ t : List Char, (scanKinds t).length = t.length) ∧
    (∀ t : List Char, chainedFrom 0 (spansOf t) t.length = true) ∧
    (∀ (body : List Char) (fuel : Nat) (stk : List (StrVariant × Nat)),
      body.length ≤ fuel → (∀ c ∈ body, c ≠ '"' ∧ c ≠ '\\') →
      scanAux fuel ⟨.inStr .regular, stk⟩ body =
        List.replicate body.length (Kind.str .regular)) ∧
    (∀ (body : List Char) (fuel : Nat) (stk : List (StrVariant × Nat)),
      body.length ≤ fuel → (∀ c ∈ body, c ≠ '*') →
      scanAux fuel ⟨.blockComment, stk⟩ body = List.replicate body.length Kind.blockComment) := by
  refine ⟨scanKinds_length, ?_, scanAux_unterminated_regular, scanAux_unterminated_block⟩
  intro t
  have h := groupSpans_chain (scanKinds t) 0
  rw [scanKinds_length t] at h
  simpa [spansOf] using h

/-- C4 witness: on a concrete text with an unterminated string the spans
still tile the whole text, and the unterminated tail is classified as
string content to end-of-file. -/
theorem claim4_witness :
    (scanKinds "int a; \"oops".data).length = "int a; \"oops".data.length ∧
    chainedFrom 0 (spansOf "int a; \"oops".data) "int a; \"oops".data.length = true ∧
    scanAux 4 ⟨.inStr .regular, []⟩ "oops".data =
      List.replicate 4 (Kind.str .regular) ∧
    (scanKinds "int a; \"oops".data).getD 11 .code = Kind.str .regular :=
  ⟨claim4_classification_total_partition.1 _,
   claim4_classification_total_partition.2.1 _,
   claim4_classification_total_partition.2.2.1 "oops".data 4 [] (by decide) (by decide),
   by decide⟩


theorem foldl_best_spec (f : Nat → Int) :
    ∀ (l : List Nat) (b : Nat), l.Pairwise (· ≤ ·) → (∀ x ∈ l, b ≤ x) →
    ∃ r, l.foldl (fun best c => match best with
        | none => some c
        | some b2 => if f c ≤ f b2 then some c else some b2) (some b) = some r ∧
      (r = b ∨ r ∈ l) ∧ f r ≤ f b ∧ (∀ c ∈ l, f r ≤ f c) ∧
      (f b = f r → b ≤ r) ∧ (∀ c ∈ l, f c = f r → c ≤ r) := by
  intro l
  induction l with
  | nil =>
    intro b _ _
    exact ⟨b, rfl, Or.inl rfl, le_rfl, by simp, fun _ => le_rfl, by simp⟩
  | cons c l ih =>
    intro b hp hb
    have hpl : l.Pairwise (· ≤ ·) := hp.of_cons
    have hcl : ∀ x ∈ l, c ≤ x := fun x hx => (List.pairwise_cons.mp hp).1 x hx
    rw [List.foldl_cons]
    by_cases hfc : f c ≤ f b
    · have hred : (match some b with
          | none => some c
          | some b2 => if f c ≤ f b2 then some c else some b2) = some c := by
        simp [hfc]
      rw [hred]
      obtain ⟨r, h1, h2, h3, h4, h5, h6⟩ := ih c hpl hcl
      refine ⟨r, h1, ?_, le_trans h3 hfc, ?_, ?_, ?_⟩
      · rcases h2 with rfl | h2
        · exact Or.inr (List.mem_cons_self _ _)
        · exact Or.inr (List.mem_cons_of_mem _ h2)
      · intro x hx
        rcases List.mem_cons.mp hx with rfl | hx
        · exact h3
        · exact h4 x hx
      · intro hbr
        have hfcr : f c = f r := le_antisymm (by omega) h3
        have := h5 hfcr
        have hbc := hb c (List.mem_cons_self _ _)
        omega
      · intro x hx hxr
        rcases List.mem_cons.mp hx with rfl | hx
        · exact h5 hxr
        · exact h6 x hx hxr
    · have hred : (match some b with
          | none => some c
          | some b2 => if f c ≤ f b2 then some c else some b2) = some b := by
        simp [hfc]
      rw [hred]
      obtain ⟨r, h1, h2, h3, h4, h5, h6⟩ := ih b hpl (fun x hx => hb x (List.mem_cons_of_mem _ hx))
      refine ⟨r, h1, ?_, h3, ?_, h5, ?_⟩
      · rcases h2 with rfl | h2
        · exact Or.inl rfl
        · exact Or.inr (List.mem_cons_of_mem _ h2)
      · intro x hx
        rcases List.mem_cons.mp hx with rfl | hx
        · omega
        · exact h4 x hx
      · intro x hx hxr
        rcases List.mem_cons.mp hx with rfl | hx
        · omega
        · exact h6 x hx hxr

/-- C3: among brace-closing candidates surviving the in-string/in-comment
filter, the selector returns the candidate with minimum structural depth,
and among candidates sharing the minimum depth the latest-occurring one in
the text. -/
theorem claim3_min_depth_latest_tie (t : List Char) (cands : List Nat)
    (hs : cands.Pairwise (· ≤ ·))
    (hne : cands.filter (fun c => !(_is_in_string_context t c)) ≠ []) :
    ∃ r, _find_best_closing_brace_match cands t = some r ∧
      r ∈ cands.filter (fun c => !(_is_in_string_context t c)) ∧
      (∀ c ∈ cands.filter (fun c => !(_is_in_string_context t c)),
        depthAt t r ≤ depthAt t c) ∧
      (∀ c ∈ cands.filter (fun c => !(_is_in_string_context t c)),
        depthAt t c = depthAt t r → c ≤ r) := by
  obtain ⟨s0, rest, hcons⟩ :=
    List.exists_cons_of_ne_nil hne
  have hp : (cands.filter (fun c => !(_is_in_string_context t c))).Pairwise (· ≤ ·) :=
    hs.sublist (List.filter_sublist _)
  rw [hcons] at hp
  have hpl : rest.Pairwise (· ≤ ·) := hp.of_cons
  have hbound : ∀ x ∈ rest, s0 ≤ x := fun x hx => (List.pairwise_cons.mp hp).1 x hx
  obtain ⟨r, h1, h2, h3, h4, h5, h6⟩ := foldl_best_spec (depthAt t) rest s0 hpl hbound
  refine ⟨r, ?_, ?_, ?_, ?_⟩
  · unfold _find_best_closing_brace_match
    rw [hcons, List.foldl_cons]
    exact h1
  · rw [hcons]
    rcases h2 with rfl | h2
    · exact List.mem_cons_self _ _
    · exact List.mem_cons_of_mem _ h2
  · rw [hcons]
    intro x hx
    rcases List.mem_cons.mp hx with rfl | hx
    · exact h3
    · exact h4 x hx
  · rw [hcons]
    intro x hx hxr
    rcases List.mem_cons.mp hx with rfl | hx
    · exact h5 hxr
    · exact h6 x hx hxr

/-- C3 witness: on the text `{ { } { } }` with the three closing-brace
candidates at structural depths [2, 2, 1], the selector returns the
depth-1 candidate (the last closing brace). -/
theorem claim3_witness :
    depthAt "{ { } { } }".data 4 = 2 ∧ depthAt "{ { } { } }".data 8 = 2 ∧
    depthAt "{ { } { } }".data 10 = 1 ∧
    (∃ r, _find_best_closing_brace_match [4, 8, 10] "{ { } { } }".data = some r ∧
      r ∈ [4, 8, 10].filter (fun c => !(_is_in_string_context "{ { } { } }".data c)) ∧
      (∀ c ∈ [4, 8, 10].filter (fun c => !(_is_in_string_context "{ { } { } }".data c)),
        depthAt "{ { } { } }".data r ≤ depthAt "{ { } { } }".data c) ∧
      (∀ c ∈ [4, 8, 10].filter (fun c => !(_is_in_string_context "{ { } { } }".data c)),
        depthAt "{ { } { } }".data c = depthAt "{ { } { } }".data r → c ≤ r)) ∧
    _find_best_closing_brace_match [4, 8, 10] "{ { } { } }".data = some 10 :=
  ⟨by decide, by decide, by decide,
   claim3_min_depth_latest_tie "{ { } { } }".data [4, 8, 10] (by decide) (by decide),
   by decide⟩

/-- C6: the anchor selector first discards every candidate whose start
offset classifies as in-string/in-comment (first conjunct: membership in
the surviving list is exactly membership among the candidates with a false
query, so hole-starting candidates are kept), returns no match when zero
candidates survive (second conjunct), and returns the unique survivor when
exactly one candidate lies outside string/comment context (third
conjunct), for either value of the preference flag. -/
theorem claim6_anchor_filter_no_match (t : List Char) (cands : List Nat) (pl : Bool) :
    (∀ c, c ∈ cands.filter (fun c => !(_is_in_string_context t c)) ↔
      c ∈ cands ∧ _is_in_string_context t c = false) ∧
    (cands.filter (fun c => !(_is_in_string_context t c)) = [] →
      _find_best_anchor_match cands t pl = none) ∧
    (∀ c, cands.filter (fun c => !(_is_in_string_context t c)) = [c] →
      _find_best_anchor_match cands t pl = some c) := by
  refine ⟨?_, ?_, ?_⟩
  · intro c
    simp [List.mem_filter]
  · intro h
    simp only [_find_best_anchor_match, h]
    cases pl <;> rfl
  · intro c h
    simp only [_find_best_anchor_match, h]
    cases pl <;> rfl

/-- C6 witness: on `s = "}"; }` with candidates at the in-string brace and
the code brace, exactly the code candidate survives and is returned for
both preference values. -/
theorem claim6_witness :
    (9 ∈ [5, 9].filter (fun c => !(_is_in_string_context "s = \"\x7d\"; \x7d".data c)) ↔
      9 ∈ [5, 9] ∧ _is_in_string_context "s = \"\x7d\"; \x7d".data 9 = false) ∧
    _find_best_anchor_match [5, 9] "s = \"\x7d\"; \x7d".data true = some 9 ∧
    _find_best_anchor_match [5, 9] "s = \"\x7d\"; \x7d".data false = some 9 :=
  ⟨(claim6_anchor_filter_no_match "s = \"\x7d\"; \x7d".data [5, 9] true).1 9,
   (claim6_anchor_filter_no_match "s = \"\x7d\"; \x7d".data [5, 9] true).2.2 9 (by decide),
   (claim6_anchor_filter_no_match "s = \"\x7d\"; \x7d".data [5, 9] false).2.2 9 (by decide)⟩


theorem applyEditsFrom_fail (ops : List EditOp) : ∀ (j i : Nat) (buf0 buf : List Char)
    (k : ErrKind), i < ops.length → applyEditsFrom j buf0 (ops.take i) = .ok buf →
    applyOne buf (ops.getD i (.prepend [])) = .error k →
    applyEditsFrom j buf0 ops = .error ⟨j + i, k⟩ := by
  induction ops with
  | nil => intro j i buf0 buf k hi _ _; simp at hi
  | cons op ops ih =>
    intro j i buf0 buf k hi hpre hfail
    cases i with
    | zero =>
      simp only [List.take_zero, applyEditsFrom, Except.ok.injEq] at hpre
      subst hpre
      simp only [List.getD_cons_zero] at hfail
      simp only [applyEditsFrom, hfail]
      rfl
    | succ i2 =>
      simp only [List.take_succ_cons, applyEditsFrom] at hpre
      cases hop : applyOne buf0 op with
      | error k2 => rw [hop] at hpre; simp at hpre
      | ok b2 =>
        rw [hop] at hpre
        simp only [applyEditsFrom, hop]
        have hrec := ih (j + 1) i2 b2 buf k (by simp at hi; omega) hpre
          (by simpa using hfail)
        rw [show j + (i2 + 1) = j + 1 + i2 by omega]
        exact hrec

/-- C5: the edit engine is fail-fast and atomic on failure — whenever the
operations before index `i` all succeed, producing buffer `buf`, and
operation `i` cannot be resolved, the whole batch aborts with a structured
failure naming exactly index `i` and that operation's error kind; no
partial buffer is returned (the failure value carries no text), and no
exception escapes (the engine is a total function into a success/failure
value). -/
theorem claim5_fail_fast (text : List Char) (ops : List EditOp) (i : Nat) (buf : List Char)
    (k : ErrKind) (hi : i < ops.length)
    (hpre : _apply_edits_locally text (ops.take i) = .ok buf)
    (hfail : applyOne buf (ops.getD i (.prepend [])) = .error k) :
    _apply_edits_locally text ops = .error ⟨i, k⟩ := by
  have h := applyEditsFrom_fail ops 0 i text buf k hi hpre hfail
  simpa [_apply_edits_locally] using h

/-- C5 witness: a batch whose first operation addresses line 5 of a
two-character buffer fails at index 0 with the invalid-range kind. -/
theorem claim5_witness :
    _apply_edits_locally "ab".data [.replaceRange 5 1 5 2 []] =
      .error ⟨0, .invalidRange⟩ :=
  claim5_fail_fast "ab".data [.replaceRange 5 1 5 2 []] 0 "ab".data .invalidRange
    (by decide) rfl rfl

/-- C7: a batch holding exactly one prepend and one append yields
prependText ++ original ++ appendText in either operation order; in
particular prepending `top` and appending `bottom` around `middle` gives
the same three-line result both ways. -/
theorem claim7_prepend_append_order_independent (orig p a : List Char) :
    _apply_edits_locally orig [.prepend p, .append a] = .ok (p ++ orig ++ a) ∧
    _apply_edits_locally orig [.append a, .prepend p] = .ok (p ++ orig ++ a) ∧
    _apply_edits_locally "middle\n".data [.prepend "top\n".data, .append "bottom\n".data] =
      .ok "top\nmiddle\nbottom\n".data ∧
    _apply_edits_locally "middle\n".data [.append "bottom\n".data, .prepend "top\n".data] =
      .ok "top\nmiddle\nbottom\n".data := by
  refine ⟨?_, ?_, rfl, rfl⟩
  · simp [_apply_edits_locally, applyEditsFrom, applyOne, List.append_assoc]
  · simp [_apply_edits_locally, applyEditsFrom, applyOne, List.append_assoc]

/-- C9: applying an empty operation list returns the original text
unchanged (identity law of the edit application engine). -/
theorem claim9_empty_batch_identity (text : List Char) :
    _apply_edits_locally text [] = .ok text := rfl

theorem containsSub_cons (p : List Char) (c : Char) (rest : List Char) :
    containsSub p (c :: rest) = (p.isPrefixOf (c :: rest) || containsSub p rest) := rfl

theorem replaceAllAux_no_occurrence : ∀ (fuel : Nat) (buf p rep : List Char),
    containsSub p buf = false → replaceAllAux fuel buf p rep = buf := by
  intro fuel
  induction fuel with
  | zero => intro buf p rep _; rfl
  | succ f ih =>
    intro buf p rep h
    cases buf with
    | nil => rfl
    | cons c rest =>
      rw [containsSub_cons, Bool.or_eq_false_iff] at h
      simp [replaceAllAux, h.1, ih _ _ _ h.2]


/-- C8: `RegexReplace` performs a global substitution of the pattern by the
replacement against the current buffer.  First conjunct: the separate
literal `text` field has no effect — `replacement` is authoritative.
Second conjunct: the operation's result is exactly the global substitution.
Third conjunct: a buffer with no occurrence of the pattern is left
unchanged.  Remaining conjuncts: on the test scenario, replacing `OLD` by
`NEW` removes every occurrence of `OLD` and introduces `NEW`. -/
theorem claim8_regex_replace_global :
    (∀ (buf p r : List Char) (t1 t2 : Option (List Char)),
      applyOne buf (.regexReplace p r t1) = applyOne buf (.regexReplace p r t2)) ∧
    (∀ (buf p r : List Char) (tf : Option (List Char)),
      applyOne buf (.regexReplace p r tf) = .ok (replaceAll buf p r)) ∧
    (∀ buf p r : List Char, containsSub p buf = false → replaceAll buf p r = buf) ∧
    _apply_edits_locally "void M() \x7b\n    Debug.Log($\"x=\x7bx\x7d\");\n    int OLD = 1;\n\x7d\n".data
        [.regexReplace "OLD".data "NEW".data (some "NEW".data)] =
      .ok "void M() \x7b\n    Debug.Log($\"x=\x7bx\x7d\");\n    int NEW = 1;\n\x7d\n".data ∧
    containsSub "NEW".data
      "void M() \x7b\n    Debug.Log($\"x=\x7bx\x7d\");\n    int NEW = 1;\n\x7d\n".data = true ∧
    containsSub "OLD".data
      "void M() \x7b\n    Debug.Log($\"x=\x7bx\x7d\");\n    int NEW = 1;\n\x7d\n".data = false := by
  refine ⟨fun _ _ _ _ _ => rfl, fun _ _ _ _ => rfl, ?_, rfl, by decide, by decide⟩
  intro buf p r h
  exact replaceAllAux_no_occurrence buf.length buf p r h

/-- C8 witness: a buffer without the pattern is returned unchanged by the
global substitution. -/
theorem claim8_witness : replaceAll "abc".data "x".data "y".data = "abc".data :=
  claim8_regex_replace_global.2.2.1 "abc".data "x".data "y".data (by decide)


/-- C10: the tool-registration decorator raises `ValueError` exactly when
its `unity_target` argument is a string without non-whitespace content
(first conjunct, stated over string-or-None arguments), in which case no
entry is appended; otherwise it appends exactly one registry entry whose
`unity_target` field is `none` for `none`, the tool's name for the exact
string `"self"`, and the stripped string otherwise, and whose keyword
arguments never contain the key `"unity_target"` (second conjunct). -/
theorem claim10_tool_registration (reg : List ToolEntry) (nm desc : Option (List Char))
    (ut : Option (List Char)) (kw : List (List Char × List Char)) (fn : List Char) :
    ((∃ msg, mcp_for_unity_tool reg nm desc ut kw fn = .error msg) ↔
      (∃ s, ut = some s ∧ pyStrip s = [])) ∧
    (∀ out, mcp_for_unity_tool reg nm desc ut kw fn = .ok out →
      ∃ e, out = reg ++ [e] ∧
        e.unity_target = (match ut with
          | none => none
          | some s => some (if s = "self".data then nm.getD fn else pyStrip s)) ∧
        (∀ kv ∈ e.kwargs, kv.1 ≠ "unity_target".data)) := by
  constructor
  · cases ut with
    | none => simp [mcp_for_unity_tool]
    | some s =>
      by_cases h : pyStrip s = []
      · simp [mcp_for_unity_tool, h]
      · simp [mcp_for_unity_tool, h]
  · intro out hout
    cases ut with
    | none =>
      simp only [mcp_for_unity_tool, Except.ok.injEq] at hout
      refine ⟨_, hout.symm, rfl, ?_⟩
      intro kv hkv
      simpa using (List.mem_filter.mp hkv).2
    | some s =>
      by_cases h : pyStrip s = []
      · rw [mcp_for_unity_tool] at hout
        rw [if_neg (by simpa using h)] at hout
        exact absurd hout (by simp)
      · rw [mcp_for_unity_tool] at hout
        rw [if_pos h] at hout
        simp only [Except.ok.injEq] at hout
        refine ⟨_, hout.symm, rfl, ?_⟩
        intro kv hkv
        simpa using (List.mem_filter.mp hkv).2

/-- C10 witness: registering with `unity_target = " self "` (non-empty
after stripping, but not exactly `"self"`) appends one entry whose target
is the stripped string `"self"` and whose kwargs lost the `unity_target`
key that was supplied. -/
theorem claim10_witness :
    ∃ e, [(⟨"t".data, "t".data, none, some "self".data,
        [("a".data, "b".data)]⟩ : ToolEntry)] = ([] : List ToolEntry) ++ [e] ∧
      e.unity_target = some (if " self ".data = "self".data then
        (none : Option (List Char)).getD "t".data else pyStrip " self ".data) ∧
      ∀ kv ∈ e.kwargs, kv.1 ≠ "unity_target".data :=
  (claim10_tool_registration [] none none (some " self ".data)
      [("unity_target".data, "v".data), ("a".data, "b".data)] "t".data).2
    [⟨"t".data, "t".data, none, some "self".data, [("a".data, "b".data)]⟩] rfl

end UnityMcp
